import Mathlib

/-!
Shallow embedding of `Interlock/interlock_tree_parser.py`.

Strings are modelled as `List Char`.  Python's whitespace class (`str.isspace`,
and `\s` in `re` patterns over `str`) is modelled by `isPySpace`; `str.strip()`
with no arguments strips exactly that class.  The decoration scan set is the
literal list from the source's content-start loop; the regex strip class is the
character class of the pattern `^(?:[│─└├\s\xa0]*)(.*)$` used to extract the
name (note it omits the glyphs ┬ ┴ ┘ ┌ ┐ ┼ that the scan set contains).
-/

abbrev Str := List Char

/-- Python whitespace: the characters for which `str.isspace()` is true,
which is also the class matched by `\s` in a `str` regex. -/
def isPySpace (c : Char) : Bool :=
  c = ' ' || c = '\t' || c = '\n' || c = '\x0b' || c = '\x0c' || c = '\r' ||
  c = '\x1c' || c = '\x1d' || c = '\x1e' || c = '\x1f' || c = '\u0085' ||
  c = '\u00a0' || c = '\u1680' || ('\u2000' ≤ c && c ≤ '\u200a') ||
  c = '\u2028' || c = '\u2029' || c = '\u202f' || c = '\u205f' || c = '\u3000'

/-- The decoration list of the content-start scan:
`[' ', '\xa0', '│', '─', '└', '├', '┬', '┴', '┘', '┌', '┐', '┼']`. -/
def scanDecoration (c : Char) : Bool :=
  c = ' ' || c = '\u00a0' || c = '│' || c = '─' || c = '└' || c = '├' ||
  c = '┬' || c = '┴' || c = '┘' || c = '┌' || c = '┐' || c = '┼'

/-- The character class `[│─└├\s\xa0]` of the name-extraction pattern
(`\xa0` is already inside `\s` for `str` patterns). -/
def regexStrip (c : Char) : Bool :=
  c = '│' || c = '─' || c = '└' || c = '├' || isPySpace c

/-- Python `s.strip()`: drop leading and trailing whitespace. -/
def stripWs (cs : Str) : Str :=
  ((cs.dropWhile isPySpace).reverse.dropWhile isPySpace).reverse

/-- Worker for whitespace collapsing: `b` records whether the previous kept
character position ended a whitespace run (Python `re.sub(r'\s+', ' ', s)`
replaces each maximal whitespace run by a single space). -/
def collapseAux : Bool → Str → Str
  | _, [] => []
  | prevSpace, c :: cs =>
    if isPySpace c then
      if prevSpace then collapseAux true cs
      else ' ' :: collapseAux true cs
    else c :: collapseAux false cs

/-- Python `re.sub(r'\s+', ' ', s)`. -/
def collapseWs (cs : Str) : Str := collapseAux false cs

/-- `item_name_cleaned`: `re.sub(r'\s+', ' ', group1.strip()).strip()`. -/
def cleanName (cs : Str) : Str := stripWs (collapseWs (stripWs cs))

/-- The content-start scan: index of the first character outside the scan
decoration list; `0` when the loop never breaks (empty or all-decoration line),
exactly as the Python variable is initialised to `0`. -/
def content_start_index (cs : Str) : Nat :=
  (cs.findIdx? (fun c => !(scanDecoration c))).getD 0

structure ParsedItem where
  line_num : Nat
  raw_line : Str
  indent_level : Nat
  item_name : Str
  deriving DecidableEq

/-- Embedding of `parse_tree_line`.  For a line containing no newline the
anchored pattern `^(?:[│─└├\s\xa0]*)(.*)$` always matches (the class run may be
empty and `.*` takes the rest), so the source's `return None` branch is
unreachable; the caller strips `'\n'`/`'\r'` before calling.  Group 1 is the
line after its maximal leading run of strip-class characters. -/
def parse_tree_line (line_num : Nat) (raw_line : Str) : Option ParsedItem :=
  some
    { line_num := line_num
      raw_line := raw_line
      indent_level := content_start_index raw_line / 4
      item_name := cleanName (raw_line.dropWhile regexStrip) }

/-- Does `\s*\([^)]*\)$` match this entire suffix: optional whitespace, `'('`,
a run with no `')'`, then a final `')'` ending the string. -/
def sizeSuffix (cs : Str) : Bool :=
  match cs.dropWhile isPySpace with
  | '(' :: rest =>
    match rest.reverse with
    | ')' :: mid => mid.all (fun c => c ≠ ')')
    | _ => false
  | _ => false

/-- Python `re.sub(r'\s*\([^)]*\)$', '', name)`: remove the leftmost (hence
only) match of the end-anchored pattern, scanning start positions left to
right; identity when no position matches. -/
def stripSize : Str → Str
  | [] => []
  | c :: cs => if sizeSuffix (c :: cs) then [] else c :: stripSize cs

/-- Python `s.split('.')[-1]`: the substring after the last `'.'` (the whole
string when no dot occurs). -/
def suffixAfterLastDot (cs : Str) : Str :=
  (cs.reverse.takeWhile (fun c => c ≠ '.')).reverse

/-- Embedding of `is_file`, parameterised by the externally supplied
`FILE_EXTENSIONS` allow-list (entries carry the leading dot, as the source
builds `'.' + ext.lower()` before the membership test).  `Char.toLower` models
`str.lower()` on the ASCII extensions this list contains. -/
def is_file (allow : List Str) (item_name : Str) : Bool :=
  let clean_name := stripSize item_name
  if '.' ∈ clean_name then
    decide (('.' :: (suffixAfterLastDot clean_name).map Char.toLower) ∈ allow)
  else false

/-- The two `while` loops of `update_path`: pop from the end while the stack is
longer than the level (`take L`), then append empty names while shorter. -/
def truncPad (s : List Str) (L : Nat) : List Str :=
  let s1 := s.take L
  s1 ++ List.replicate (L - s1.length) []

/-- Python `"/".join(paths)`. -/
def joinPath : List Str → Str
  | [] => []
  | [p] => p
  | p :: rest => p ++ '/' :: joinPath rest

/-- Embedding of `update_path` (the dict argument is narrowed to the one field
it reads, `item['item_name']`): truncate, pad, then either append (stack length
equals the level) or overwrite index `L`; returns the new stack and the joined
full path. -/
def update_path (current_path : List Str) (item_name : Str) (L : Nat) :
    List Str × Str :=
  let s2 := truncPad current_path L
  let s3 := if s2.length = L then s2 ++ [item_name] else s2.set L item_name
  (s3, joinPath s3)

/-- The append-only variant of `update_path`, with the overwrite branch
removed. -/
def update_path_append (current_path : List Str) (item_name : Str) (L : Nat) :
    List Str × Str :=
  let s3 := truncPad current_path L ++ [item_name]
  (s3, joinPath s3)

/-- Python `raw_line.rstrip('\n\r')` in the processing loop. -/
def rstripNl (cs : Str) : Str :=
  (cs.reverse.dropWhile (fun c => c = '\n' || c = '\r')).reverse

/-- A `ParsedItem` after the loop has attached its full path. -/
structure OutItem where
  line_num : Nat
  indent_level : Nat
  item_name : Str
  full_path : Str
  deriving DecidableEq

/-- The mutable state of one `process_tree_file` run: the path stack, the two
counters, the `defaultdict(int)` extension tally (as an insertion-ordered
association list), and the stream of enriched items in processing order. -/
structure RunState where
  current_path : List Str
  files_count : Nat
  total_lines_processed : Nat
  extensions : List (Str × Nat)
  items : List OutItem
  deriving DecidableEq

def initState : RunState :=
  { current_path := []
    files_count := 0
    total_lines_processed := 0
    extensions := []
    items := [] }

/-- `extensions[ext] += 1` on a `defaultdict(int)`: bump an existing key in
place, else append a fresh key with count 1. -/
def incrTally (ext : Str) : List (Str × Nat) → List (Str × Nat)
  | [] => [(ext, 1)]
  | (e, n) :: t => if e = ext then (e, n + 1) :: t else (e, n) :: incrTally ext t

/-- Total of all counts in the tally. -/
def tallySum (t : List (Str × Nat)) : Nat := (t.map (fun p => p.2)).sum

/-- `clean_name.split('.')[-1].lower()`, the tally key. -/
def extOf (clean_name : Str) : Str :=
  (suffixAfterLastDot clean_name).map Char.toLower

/-- One iteration of the `for raw_line in f` loop of `process_tree_file`:
count the line, strip trailing newline characters, skip whitespace-only lines,
parse, update the path, and classify/tally.  Output writing and progress
display are sinks with no effect on this state; the enriched item is recorded
in `items`. -/
def process_line (allow : List Str) (st : RunState) (line : Str) : RunState :=
  let total := st.total_lines_processed + 1
  let raw := rstripNl line
  if (stripWs raw).isEmpty then
    { st with total_lines_processed := total }
  else
    match parse_tree_line total raw with
    | none => { st with total_lines_processed := total }
    | some item =>
      let res := update_path st.current_path item.item_name item.indent_level
      let out : OutItem :=
        { line_num := item.line_num
          indent_level := item.indent_level
          item_name := item.item_name
          full_path := res.2 }
      let st1 : RunState :=
        { current_path := res.1
          files_count := st.files_count
          total_lines_processed := total
          extensions := st.extensions
          items := st.items ++ [out] }
      if is_file allow item.item_name then
        let clean_name := stripSize item.item_name
        let st2 := { st1 with files_count := st1.files_count + 1 }
        if '.' ∈ clean_name then
          { st2 with extensions := incrTally (extOf clean_name) st2.extensions }
        else st2
      else st1

/-- The streaming loop of `process_tree_file` over a list of input lines. -/
def process_tree_file (allow : List Str) (lines : List Str) : RunState :=
  lines.foldl (process_line allow) initState

/-- The number of processed items whose name is classified as a file and whose
stripped name contains a dot. -/
def countDotted (allow : List Str) (items : List OutItem) : Nat :=
  (items.filter
    (fun it => is_file allow it.item_name && decide ('.' ∈ stripSize it.item_name))).length

/-- The allow-list of the worked four-line scenario. -/
def demoAllow : List Str := [".txt".toList, ".py".toList]

/-- The input of the worked four-line scenario (4-space indentation). -/
def demoLines : List Str :=
  ["Root".toList, "    fileA.txt (10 KB)".toList, "    SubDir".toList,
    "        fileB.py".toList]

/-- True when the list is empty or its first character is not whitespace. -/
def headNotSpace : Str → Bool
  | [] => true
  | c :: _ => !(isPySpace c)

/-- No two adjacent whitespace characters (no whitespace run of length two or
more). -/
def noAdj : Str → Bool
  | [] => true
  | [_] => true
  | a :: b :: t => (!(isPySpace a && isPySpace b)) && noAdj (b :: t)

/-- Any whitespace character is the plain space. -/
def spaceIsBlank (c : Char) : Bool := !(isPySpace c) || c = ' '

/-- Whitespace-normalised: no whitespace run longer than one character and no
leading or trailing whitespace. -/
def wsNormalized (s : Str) : Bool :=
  noAdj s && headNotSpace s && headNotSpace s.reverse

/-- True when the list is empty or its first character is outside the regex
strip class. -/
def nameHeadOk : Str → Bool
  | [] => true
  | c :: _ => !(regexStrip c)

lemma truncPad_length (s : List Str) (L : Nat) : (truncPad s L).length = L := by
  simp only [truncPad, List.length_append, List.length_replicate,
    List.length_take]
  omega

lemma process_line_total (allow : List Str) (st : RunState) (line : Str) :
    (process_line allow st line).total_lines_processed =
      st.total_lines_processed + 1 := by
  unfold process_line
  simp only [parse_tree_line]
  split
  · rfl
  · split
    · split <;> rfl
    · rfl

lemma process_line_items_len (allow : List Str) (st : RunState) (line : Str) :
    (process_line allow st line).items.length ≤ st.items.length + 1 := by
  unfold process_line
  simp only [parse_tree_line]
  split
  · simp
  · split
    · split <;> simp
    · simp

lemma foldl_total (allow : List Str) (lines : List Str) : ∀ st : RunState,
    (List.foldl (process_line allow) st lines).total_lines_processed =
      st.total_lines_processed + lines.length := by
  induction lines with
  | nil => intro st; simp
  | cons l ls ih =>
    intro st
    simp only [List.foldl_cons, ih, process_line_total, List.length_cons]
    omega

lemma foldl_items_len (allow : List Str) (lines : List Str) : ∀ st : RunState,
    (List.foldl (process_line allow) st lines).items.length ≤
      st.items.length + lines.length := by
  induction lines with
  | nil => intro st; simp
  | cons l ls ih =>
    intro st
    calc (List.foldl (process_line allow) (process_line allow st l) ls).items.length
        ≤ (process_line allow st l).items.length + ls.length := ih _
      _ ≤ (st.items.length + 1) + ls.length :=
          Nat.add_le_add_right (process_line_items_len allow st l) _
      _ = st.items.length + (l :: ls).length := by simp; omega

lemma dropWhile_head_false {α} (p : α → Bool) :
    ∀ (l : List α) {c : α} {cs : List α}, l.dropWhile p = c :: cs → p c = false := by
  intro l
  induction l with
  | nil => intro c cs h; simp [List.dropWhile] at h
  | cons a t ih =>
    intro c cs h
    by_cases hpa : p a
    · rw [List.dropWhile_cons_of_pos hpa] at h; exact ih h
    · rw [List.dropWhile_cons_of_neg hpa] at h
      cases h
      simpa using hpa

lemma stripWs_isAppendOf (l : Str) :
    ∃ u, stripWs l ++ u = l.dropWhile isPySpace := by
  obtain ⟨t, ht⟩ := List.dropWhile_suffix
    (l := (l.dropWhile isPySpace).reverse) isPySpace
  refine ⟨t.reverse, ?_⟩
  have h2 := congrArg List.reverse ht
  simpa [stripWs, List.reverse_append] using h2

lemma stripWs_head (l : Str) : headNotSpace (stripWs l) = true := by
  obtain ⟨u, hu⟩ := stripWs_isAppendOf l
  cases hs : stripWs l with
  | nil => rfl
  | cons c cs =>
    rw [hs] at hu
    have : l.dropWhile isPySpace = c :: (cs ++ u) := by
      rw [← hu]; simp
    have := dropWhile_head_false isPySpace l this
    simp [headNotSpace, this]

lemma stripWs_reverse_head (l : Str) :
    headNotSpace (stripWs l).reverse = true := by
  have hrev : (stripWs l).reverse =
      ((l.dropWhile isPySpace).reverse).dropWhile isPySpace := by
    simp [stripWs]
  cases hs : (stripWs l).reverse with
  | nil => rfl
  | cons c cs =>
    rw [hs] at hrev
    have := dropWhile_head_false isPySpace ((l.dropWhile isPySpace).reverse) hrev.symm
    simp [headNotSpace, this]

lemma noAdj_cons_elim {a : Char} {l : Str} (h : noAdj (a :: l) = true) :
    noAdj l = true := by
  cases l with
  | nil => rfl
  | cons b t => simp [noAdj] at h; exact h.2

lemma noAdj_cons_of_head {a : Char} {l : Str} (hh : headNotSpace l = true)
    (hl : noAdj l = true) : noAdj (a :: l) = true := by
  cases l with
  | nil => rfl
  | cons b t =>
    simp only [noAdj, Bool.and_eq_true, hl, and_true]
    simp only [headNotSpace] at hh
    simp [hh]

lemma noAdj_cons_of_not {a : Char} {l : Str} (ha : isPySpace a = false)
    (hl : noAdj l = true) : noAdj (a :: l) = true := by
  cases l with
  | nil => rfl
  | cons b t => simp [noAdj, hl, ha]

lemma noAdj_append_left : ∀ {l t : Str}, noAdj (l ++ t) = true → noAdj l = true := by
  intro l
  induction l with
  | nil => intro t _; rfl
  | cons a l' ih =>
    intro t h
    cases l' with
    | nil => rfl
    | cons b l'' =>
      simp only [List.cons_append, noAdj, Bool.and_eq_true] at h ⊢
      exact ⟨h.1, ih (t := t) h.2⟩

lemma noAdj_append_right : ∀ {t l : Str}, noAdj (t ++ l) = true → noAdj l = true := by
  intro t
  induction t with
  | nil => intro l h; simpa using h
  | cons a t' ih =>
    intro l h
    exact ih (noAdj_cons_elim h)

lemma noAdj_stripWs {l : Str} (h : noAdj l = true) : noAdj (stripWs l) = true := by
  obtain ⟨t, ht⟩ := List.dropWhile_suffix (l := l) isPySpace
  have hm : noAdj (l.dropWhile isPySpace) = true :=
    noAdj_append_right (ht ▸ h)
  obtain ⟨u, hu⟩ := stripWs_isAppendOf l
  exact noAdj_append_left (hu ▸ hm)

lemma collapseAux_head (cs : Str) : headNotSpace (collapseAux true cs) = true := by
  induction cs with
  | nil => rfl
  | cons c cs ih =>
    by_cases hc : isPySpace c
    · simpa [collapseAux, hc] using ih
    · simp [collapseAux, hc, headNotSpace]

lemma collapseAux_noAdj (cs : Str) : ∀ b, noAdj (collapseAux b cs) = true := by
  induction cs with
  | nil => intro b; rfl
  | cons c cs ih =>
    intro b
    by_cases hc : isPySpace c
    · cases b with
      | true => simpa [collapseAux, hc] using ih true
      | false =>
        simp only [collapseAux, hc, if_pos, if_true]
        exact noAdj_cons_of_head (collapseAux_head cs) (ih true)
    · simp only [collapseAux, hc, if_neg, if_false]
      exact noAdj_cons_of_not (by simpa using hc) (ih false)

lemma collapseAux_blank (cs : Str) : ∀ b, (collapseAux b cs).all spaceIsBlank = true := by
  induction cs with
  | nil => intro b; rfl
  | cons c cs ih =>
    intro b
    by_cases hc : isPySpace c
    · cases b with
      | true => simpa [collapseAux, hc] using ih true
      | false => simp [collapseAux, hc, spaceIsBlank, ih true]
    · simp [collapseAux, hc, spaceIsBlank, ih false]

lemma stripWs_all {p : Char → Bool} {l : Str} (h : l.all p = true) :
    (stripWs l).all p = true := by
  rw [List.all_eq_true] at h ⊢
  intro x hx
  obtain ⟨u, hu⟩ := stripWs_isAppendOf l
  obtain ⟨t, ht⟩ := List.dropWhile_suffix (l := l) isPySpace
  apply h
  have hx2 : x ∈ l.dropWhile isPySpace := by
    rw [← hu]; exact List.mem_append_left _ hx
  rw [← ht]
  exact List.mem_append_right _ hx2

lemma head_cleanName_strip (raw : Str) :
    nameHeadOk (cleanName (raw.dropWhile regexStrip)) = true := by
  cases hg : raw.dropWhile regexStrip with
  | nil => rfl
  | cons a g' =>
    have ha : regexStrip a = false := dropWhile_head_false regexStrip raw hg
    have has : isPySpace a = false := by
      cases h' : isPySpace a
      · rfl
      · exfalso; simp [regexStrip, h'] at ha
    obtain ⟨u1, hu1⟩ := stripWs_isAppendOf (a :: g')
    rw [List.dropWhile_cons_of_neg (by simp [has])] at hu1
    cases h1 : stripWs (a :: g') with
    | nil => simp [cleanName, h1]; rfl
    | cons c cs =>
      rw [h1] at hu1
      have hc : c = a := by
        have := congrArg List.head? hu1
        simpa using this
      subst hc
      have hz : collapseWs (c :: cs) = c :: collapseAux false cs := by
        simp [collapseWs, collapseAux, has]
      obtain ⟨u2, hu2⟩ := stripWs_isAppendOf (c :: collapseAux false cs)
      rw [List.dropWhile_cons_of_neg (by simp [has])] at hu2
      have : cleanName (c :: g') = stripWs (c :: collapseAux false cs) := by
        simp [cleanName, h1, hz]
      rw [this]
      cases h2 : stripWs (c :: collapseAux false cs) with
      | nil => rfl
      | cons d ds =>
        rw [h2] at hu2
        have hd : d = c := by
          have := congrArg List.head? hu2
          simpa using this
        subst hd
        simp [nameHeadOk, ha]

lemma incrTally_sum (ext : Str) : ∀ t, tallySum (incrTally ext t) = tallySum t + 1 := by
  intro t
  induction t with
  | nil => rfl
  | cons p t ih =>
    obtain ⟨e, k⟩ := p
    by_cases he : e = ext
    · simp [incrTally, he, tallySum]; omega
    · simp only [incrTally, if_neg he, tallySum, List.map_cons, List.sum_cons]
      simp only [tallySum] at ih
      omega

lemma is_file_dot {allow : List Str} {name : Str}
    (h : is_file allow name = true) : '.' ∈ stripSize name := by
  by_cases hd : '.' ∈ stripSize name
  · exact hd
  · simp [is_file, hd] at h

lemma process_line_inv (allow : List Str) (st : RunState) (line : Str)
    (h : tallySum st.extensions = countDotted allow st.items) :
    tallySum (process_line allow st line).extensions =
      countDotted allow (process_line allow st line).items := by
  by_cases hb : (stripWs (rstripNl line)).isEmpty
  · simpa [process_line, hb] using h
  · by_cases hf : is_file allow (cleanName ((rstripNl line).dropWhile regexStrip))
    · have hdot := is_file_dot hf
      simp only [process_line, hb, parse_tree_line, if_false, Bool.false_eq_true,
        if_pos hdot, hf, if_true, incrTally_sum, h, countDotted,
        List.filter_append, List.length_append]
      simp [List.filter, hf, hdot]
    · simp only [process_line, hb, parse_tree_line, hf, countDotted,
        List.filter_append, List.length_append, h]
      simp [List.filter, hf]
      simpa [countDotted] using h

/-- C1: after any call of the path reconstructor with an item of indentation
level `L ≥ 0`, the path stack has length exactly `L + 1`. -/
theorem update_path_length_invariant (s : List Str) (n : Str) (L : Nat) :
    ((update_path s n L).1).length = L + 1 := by
  simp [update_path, truncPad_length]

/-- C2 (counterexample): the line consisting of the single decoration glyph `│`
is not returned as absent: the parser yields an item (with empty cleaned
name), refuting the claim that decoration-only lines produce no item. -/
theorem parse_decoration_only_not_absent :
    parse_tree_line 1 ['│'] ≠ none ∧
    (parse_tree_line 1 ['│']).map (fun it => it.item_name) = some [] := by decide

/-- C2 (amended): for every line consisting solely of decoration characters
and whitespace, the parser returns an item (never absent); such lines pass the
caller's blank check whenever they contain a non-whitespace glyph and are then
processed as ordinary items. -/
theorem parse_decoration_only_returns_item (n : Nat) (raw : Str)
    (_hdec : raw.all (fun c => scanDecoration c || isPySpace c) = true) :
    (parse_tree_line n raw).isSome = true := rfl

/-- C2 (witness): the amended statement at the concrete decoration-only
line `└ `. -/
theorem parse_decoration_only_returns_item_witness :
    (['└', ' '].all (fun c => scanDecoration c || isPySpace c) = true) ∧
    (parse_tree_line 2 ['└', ' ']).isSome = true :=
  ⟨by decide, parse_decoration_only_returns_item 2 ['└', ' '] (by decide)⟩

/-- C3: `is_file` returns true iff, after stripping a trailing parenthesized
group, the name contains a `'.'` and the lowercased dotted extension after the
last `'.'` is in the allow-list; in particular a dotted name whose final
extension is outside the allow-list is classified as a directory. -/
theorem is_file_iff_allowlisted_extension (allow : List Str) (name : Str) :
    is_file allow name = true ↔
      ('.' ∈ stripSize name ∧
        ('.' :: (suffixAfterLastDot (stripSize name)).map Char.toLower) ∈ allow) := by
  by_cases h : '.' ∈ stripSize name <;> simp [is_file, h]

/-- C4: the four-line scenario (4-space indentation, `.txt` and `.py` in the
allow-list) yields the four expected full paths, classifies the two dotted
names as files and `SubDir` as a directory, and ends with extension tally
`txt ↦ 1, py ↦ 1` and `files_count = 2`. -/
theorem scenario_four_lines :
    (process_tree_file demoAllow demoLines).items.map (fun it => it.full_path) =
      ["Root".toList, "Root/fileA.txt (10 KB)".toList, "Root/SubDir".toList,
        "Root/SubDir/fileB.py".toList] ∧
    is_file demoAllow ("fileA.txt (10 KB)".toList) = true ∧
    is_file demoAllow ("fileB.py".toList) = true ∧
    is_file demoAllow ("SubDir".toList) = false ∧
    (process_tree_file demoAllow demoLines).extensions =
      [("txt".toList, 1), ("py".toList, 1)] ∧
    (process_tree_file demoAllow demoLines).files_count = 2 := by decide

/-- C5: an item at indentation level 2 immediately following a level-0 item
(level 1 skipped) does not fail: the stack is padded with one empty-string
placeholder and the returned full path contains exactly one empty segment
(for nonempty names, e.g. `Root//Deep`). -/
theorem skipped_level_pads_empty_segment (n0 n2 : Str)
    (h0 : n0 ≠ []) (h2 : n2 ≠ []) :
    (update_path (update_path [] n0 0).1 n2 2).1 = [n0, [], n2] ∧
    (update_path (update_path [] n0 0).1 n2 2).2 = n0 ++ '/' :: '/' :: n2 ∧
    ((update_path (update_path [] n0 0).1 n2 2).1.filter
      (fun seg => seg.isEmpty)).length = 1 := by
  obtain ⟨a, ta, rfl⟩ := List.exists_cons_of_ne_nil h0
  obtain ⟨b, tb, rfl⟩ := List.exists_cons_of_ne_nil h2
  refine ⟨?_, ?_, ?_⟩ <;>
    simp [update_path, truncPad, joinPath, List.filter]

/-- C5 (witness): the skipped-level behaviour at the concrete names `Root`
and `Deep`, producing the path `Root//Deep`. -/
theorem skipped_level_pads_empty_segment_witness :
    (update_path (update_path [] "Root".toList 0).1 "Deep".toList 2).1 =
      ["Root".toList, [], "Deep".toList] ∧
    (update_path (update_path [] "Root".toList 0).1 "Deep".toList 2).2 =
      "Root".toList ++ '/' :: '/' :: "Deep".toList ∧
    ((update_path (update_path [] "Root".toList 0).1 "Deep".toList 2).1.filter
      (fun seg => seg.isEmpty)).length = 1 :=
  skipped_level_pads_empty_segment _ _ (by decide) (by decide)

/-- C6 (counterexample): the line consisting of the decoration glyph `┌`
(a member of the scan decoration set) produces the cleaned name `┌`, so a
box-drawing glyph from the decoration set can appear in the name, refuting
the claim that cleaned names contain no decoration characters. -/
theorem cleaned_name_can_contain_decoration :
    (parse_tree_line 1 ['┌']).map (fun it => it.item_name) = some ['┌'] ∧
    scanDecoration '┌' = true := by decide

/-- C6 (amended): the cleaned name never contains the non-breaking space or
any whitespace other than the plain space, and never begins with a character
of the regex strip class (the glyphs `│ ─ └ ├` or whitespace); box-drawing
glyphs after the first content character, and the glyphs `┬ ┴ ┘ ┌ ┐ ┼`
anywhere, are not stripped and may remain in the name. -/
theorem cleaned_name_decoration_guarantee (n : Nat) (raw : Str) :
    (parse_tree_line n raw).all
      (fun it => it.item_name.all spaceIsBlank && nameHeadOk it.item_name) = true := by
  simp only [parse_tree_line, Option.all, Bool.and_eq_true]
  constructor
  · exact stripWs_all (collapseAux_blank _ false)
  · exact head_cleanName_strip raw

/-- C7: for every input line with non-decoration content, the produced name
has no internal whitespace run longer than one space and no leading or
trailing whitespace. -/
theorem cleaned_name_whitespace_normalized (n : Nat) (raw : Str)
    (_h : raw.any (fun c => !(scanDecoration c)) = true) :
    (parse_tree_line n raw).all (fun it => wsNormalized it.item_name) = true := by
  simp only [parse_tree_line, Option.all, wsNormalized, cleanName, collapseWs,
    Bool.and_eq_true]
  exact ⟨⟨noAdj_stripWs (collapseAux_noAdj _ false), stripWs_head _⟩,
    stripWs_reverse_head _⟩

/-- C7 (witness): the whitespace-normalisation guarantee at the concrete line
`  a   b `. -/
theorem cleaned_name_whitespace_normalized_witness :
    (("  a   b ".toList).any (fun c => !(scanDecoration c)) = true) ∧
    (parse_tree_line 1 ("  a   b ".toList)).all
      (fun it => wsNormalized it.item_name) = true :=
  ⟨by decide, cleaned_name_whitespace_normalized 1 _ (by decide)⟩

/-- C8: after processing any prefix of the input (hence both after every
processed line and at the end of the run), the sum of all counts in the
extension tally equals the number of processed items classified as files
whose stripped name contains a dot. -/
theorem tally_sum_eq_dotted_files (allow : List Str) (lines : List Str) (k : Nat) :
    tallySum (process_tree_file allow (lines.take k)).extensions =
      countDotted allow (process_tree_file allow (lines.take k)).items := by
  have main : ∀ (ls : List Str) (st : RunState),
      tallySum st.extensions = countDotted allow st.items →
      tallySum (List.foldl (process_line allow) st ls).extensions =
        countDotted allow (List.foldl (process_line allow) st ls).items := by
    intro ls
    induction ls with
    | nil => intro st h; exact h
    | cons l ls ih =>
      intro st h
      exact ih _ (process_line_inv allow st l h)
  exact main _ initState rfl

/-- C9 (counterexample): on the single whitespace-only input line, the run
ends with `total_lines_processed = 1` while zero parsed items were processed,
refuting the claim that `total_lines_processed` equals the number of parsed
items processed. -/
theorem counterexample_blank_line_counted :
    (process_tree_file [] [[' ']]).total_lines_processed = 1 ∧
    (process_tree_file [] [[' ']]).items.length = 0 := by decide

/-- C9 (amended): `total_lines_processed` is incremented once per raw input
line, including blank lines that are skipped, so at the end of a run it
equals the number of input lines, which is an upper bound on (not in general
equal to) the number of parsed items processed. -/
theorem total_lines_eq_input_length (allow : List Str) (lines : List Str) :
    (process_tree_file allow lines).total_lines_processed = lines.length ∧
    (process_tree_file allow lines).items.length ≤ lines.length := by
  refine ⟨?_, ?_⟩
  · simpa [initState] using foldl_total allow lines initState
  · simpa [initState] using foldl_items_len allow lines initState

/-- C10: after the truncation and padding loops the stack length equals `L`
exactly, so the append branch is always taken and `update_path` coincides with
its append-only variant: the overwrite branch is unreachable. -/
theorem update_path_append_branch_always (s : List Str) (n : Str) (L : Nat) :
    (truncPad s L).length = L ∧ update_path s n L = update_path_append s n L := by
  refine ⟨truncPad_length s L, ?_⟩
  simp [update_path, update_path_append, truncPad_length]
